import Mathlib

/-!
Shallow embedding of the fact-check aggregation engine of the Techfest-2025
repository (a browser extension that queries AI backends and merges their
free-text fact-check reports).

Text is modelled as Lean `String` (a wrapper around `List Char`); the
JavaScript string primitives used by the code (`split`, `trim`, `startsWith`,
`parseInt`, regex matching) are re-implemented below over `List Char`,
following the exact semantics the code relies on.  JavaScript `\s` is
modelled by the six ASCII whitespace characters; JavaScript numbers are
modelled by exact integers (report percentages are far below 2^53, where the
two agree).

Source functions embedded here:
- `extractSources`, `sectionStep`/`runSections`, `parseResult`
  (src/content.js lines 203-288) and `parseResultBg`
  (src/unnamed/part_001 lines 433-501);
- `linkifyReferences` (src/content.js lines 276-288);
- `combineSources`, `mergeTruth`, `formatAggregated`, `aggregateResults`
  (src/unnamed/part_001 lines 364-425);
- `settleOutcome` (the result-dispatch step of `initiateFactCheck`,
  src/unnamed/part_001 lines 112-125).
-/

/-- The six ASCII characters matched by JavaScript `\s` (and trimmed by
`String.prototype.trim`) that can occur in this pipeline. -/
def isSpaceJS (c : Char) : Bool :=
  decide (c = ' ' ∨ c = '\t' ∨ c = '\n' ∨ c = '\r' ∨ c = '\x0b' ∨ c = '\x0c')

/-- JavaScript `String.prototype.startsWith`, on character lists:
`startsWithL pat text` is true when `pat` heads `text`. -/
def startsWithL : List Char → List Char → Bool
  | [], _ => true
  | _ :: _, [] => false
  | p :: ps, c :: cs => p == c && startsWithL ps cs

/-- JavaScript `text.split(sep)` for a one-character separator. -/
def splitOnChar (sep : Char) : List Char → List (List Char)
  | [] => [[]]
  | c :: rest =>
    if c == sep then [] :: splitOnChar sep rest
    else
      match splitOnChar sep rest with
      | [] => [[c]]
      | p :: ps => (c :: p) :: ps

/-- JavaScript `text.split('\n\n')`: the blank-line section splitter used by
`parseResult`. -/
def splitSections : List Char → List (List Char)
  | [] => [[]]
  | '\n' :: '\n' :: rest => [] :: splitSections rest
  | c :: rest =>
    match splitSections rest with
    | [] => [[c]]
    | p :: ps => (c :: p) :: ps

/-- JavaScript `String.prototype.trim`, on character lists. -/
def jsTrimL (cs : List Char) : List Char :=
  ((cs.dropWhile isSpaceJS).reverse.dropWhile isSpaceJS).reverse

/-- JavaScript `parts.join(':')`, on character lists: inverse of a colon
split, used to model `section.split(':').slice(1).join(':')`. -/
def joinColon : List (List Char) → List Char
  | [] => []
  | [x] => x
  | x :: xs => x ++ ':' :: joinColon xs

/-- One cited reference: the `{ index, title, url }` objects pushed by
`extractSources`. -/
structure Source where
  index : String
  title : String
  url : String
deriving DecidableEq

/-- The structured record produced by `parseResult`:
`{ truthPercentage, factCheck, context, sources }`. -/
structure FactCheckReport where
  truthPercentage : String
  factCheck : String
  context : String
  sources : List Source
deriving DecidableEq

/-- The default field values of `parseResult` (its `data` initializer). -/
def defaultReport : FactCheckReport :=
  ⟨"N/A", "No fact check provided.", "No context provided.", []⟩

/-- The regex `/(\d+)\.\s+(.+)/` applied to one source line: leftmost match,
returning the digit group and the content group.  A match starts at a digit;
after the maximal digit run a literal `.` must follow, then at least one
whitespace character, then at least one content character (`\s+` backs off
one character when the line would otherwise end: trailing whitespace only). -/
def findSourceMatch : List Char → Option (List Char × List Char)
  | [] => none
  | c :: rest =>
    if c.isDigit then
      let ds := List.takeWhile Char.isDigit (c :: rest)
      match List.dropWhile Char.isDigit (c :: rest) with
      | '.' :: r2 =>
        let ws := r2.takeWhile isSpaceJS
        let r3 := r2.dropWhile isSpaceJS
        if ws.isEmpty then findSourceMatch rest
        else if r3.isEmpty then
          if 2 ≤ ws.length then some (ds, ws.drop (ws.length - 1))
          else findSourceMatch rest
        else some (ds, r3)
      | _ => findSourceMatch rest
    else findSourceMatch rest

/-- Lazy `(.+?)\)` submatch of the markdown-link regex: one unconditional
character, then everything up to the first following `)`. -/
def scanClose : List Char → Option (List Char × List Char)
  | [] => none
  | ')' :: rest => some ([], rest)
  | c :: rest => (scanClose rest).map (fun p => (c :: p.1, p.2))

/-- Lazy `(.+?)\)` of `/\[(.+?)\]\((.+?)\)/`: at least one character, then the
first `)` after it; returns the url group and the remainder. -/
def findUrlPart : List Char → Option (List Char × List Char)
  | [] => none
  | c :: rest => (scanClose rest).map (fun p => (c :: p.1, p.2))

/-- Lazy title scan of `/\[(.+?)\]\((.+?)\)/` after the opening `[` and the
first (unconditional) title character: grow the title until a `](` whose url
part completes; `acc` holds the title so far, reversed. -/
def tryMdTitle : List Char → List Char → Option (List Char × List Char × List Char)
  | _, [] => none
  | acc, c :: rest =>
    if c == ']' then
      match rest with
      | '(' :: r =>
        (match findUrlPart r with
         | some p => some (acc.reverse, p.1, p.2)
         | none => tryMdTitle (c :: acc) rest)
      | _ => tryMdTitle (c :: acc) rest
    else tryMdTitle (c :: acc) rest

/-- The regex `/\[(.+?)\]\((.+?)\)/` applied to a source-line content:
leftmost match, returning title and url groups. -/
def findMarkdown : List Char → Option (List Char × List Char)
  | [] => none
  | '[' :: rest =>
    (match rest with
     | [] => none
     | c0 :: r0 =>
       match tryMdTitle [c0] r0 with
       | some p => some (p.1, p.2.1)
       | none => findMarkdown rest)
  | _ :: rest => findMarkdown rest

/-- One iteration of the `sourceLines.forEach` body of `extractSources`:
a line matching `/(\d+)\.\s+(.+)/` yields a `Source`, with title/url taken
from a markdown link in the content when present and placeholder url `"#"`
otherwise. -/
def parseSourceLine (line : List Char) : Option Source :=
  (findSourceMatch line).map (fun m =>
    match findMarkdown m.2 with
    | some tu => ⟨String.mk m.1, String.mk tu.1, String.mk tu.2⟩
    | none => ⟨String.mk m.1, String.mk m.2, "#"⟩)

/-- Embedding of `extractSources` (src/content.js lines 251-267, src/unnamed/part_001
lines 485-501): drop the label line, parse each remaining line. -/
def extractSources (sec : List Char) : List Source :=
  ((splitOnChar '\n' sec).drop 1).filterMap parseSourceLine

def srcLabel : List Char := "Sources:".data
def truthLabel : List Char := "Truth:".data
def fcLabel : List Char := "Fact Check:".data
def ctxLabel : List Char := "Context:".data

/-- One iteration of the `sections.forEach` body of `parseResult`
(src/content.js lines 216-234).  The state is the record under construction
plus the JavaScript `currentSection` string.  `section.split(':')[1]` is an
unchecked index: the embedding returns `none` where JavaScript would throw
(calling `.trim()` on `undefined`). -/
def sectionStep (st : FactCheckReport × String) (sec : List Char) :
    Option (FactCheckReport × String) :=
  if startsWithL srcLabel sec then
    some ({ st.1 with sources := st.1.sources ++ extractSources sec }, "sources")
  else if startsWithL truthLabel sec then
    match (splitOnChar ':' sec).get? 1 with
    | some t => some ({ st.1 with truthPercentage := String.mk (jsTrimL t) }, "truth")
    | none => none
  else if startsWithL fcLabel sec then
    some ({ st.1 with
      factCheck := String.mk (jsTrimL (joinColon ((splitOnChar ':' sec).drop 1))) },
      "factCheck")
  else if startsWithL ctxLabel sec then
    some ({ st.1 with
      context := String.mk (jsTrimL (joinColon ((splitOnChar ':' sec).drop 1))) },
      "context")
  else if st.2 = "factCheck" then
    some ({ st.1 with factCheck := st.1.factCheck ++ " " ++ String.mk (jsTrimL sec) }, st.2)
  else if st.2 = "context" then
    some ({ st.1 with context := st.1.context ++ " " ++ String.mk (jsTrimL sec) }, st.2)
  else
    some (st.1, st.2)

/-- Total variant of `sectionStep`, defaulting the unchecked index;
`sectionStep_eq_some` below shows the two agree everywhere. -/
def sectionStepT (st : FactCheckReport × String) (sec : List Char) :
    FactCheckReport × String :=
  if startsWithL srcLabel sec then
    ({ st.1 with sources := st.1.sources ++ extractSources sec }, "sources")
  else if startsWithL truthLabel sec then
    ({ st.1 with
      truthPercentage := String.mk (jsTrimL (((splitOnChar ':' sec).get? 1).getD [])) },
      "truth")
  else if startsWithL fcLabel sec then
    ({ st.1 with
      factCheck := String.mk (jsTrimL (joinColon ((splitOnChar ':' sec).drop 1))) },
      "factCheck")
  else if startsWithL ctxLabel sec then
    ({ st.1 with
      context := String.mk (jsTrimL (joinColon ((splitOnChar ':' sec).drop 1))) },
      "context")
  else if st.2 = "factCheck" then
    ({ st.1 with factCheck := st.1.factCheck ++ " " ++ String.mk (jsTrimL sec) }, st.2)
  else if st.2 = "context" then
    ({ st.1 with context := st.1.context ++ " " ++ String.mk (jsTrimL sec) }, st.2)
  else
    (st.1, st.2)

/-- The `sections.forEach` loop of `parseResult`. -/
def runSections : FactCheckReport × String → List (List Char) →
    Option (FactCheckReport × String)
  | st, [] => some st
  | st, sec :: rest =>
    match sectionStep st sec with
    | some st2 => runSections st2 rest
    | none => none

/-- Total variant of the `sections.forEach` loop. -/
def runSectionsT : FactCheckReport × String → List (List Char) →
    FactCheckReport × String
  | st, [] => st
  | st, sec :: rest => runSectionsT (sectionStepT st sec) rest

/-- Embedding of `sources.find(s => s.index === index)` and the per-index replacement of
`linkifyReferences`: a matching source becomes an anchor to its url labelled
with the original index text, a missing one leaves the marker unchanged. -/
def resolveIndex (sources : List Source) (idx : String) : String :=
  match sources.find? (fun s => s.index == idx) with
  | some s => "<a href=\"" ++ s.url ++ "\" target=\"_blank\">[" ++ idx ++ "]</a>"
  | none => "[" ++ idx ++ "]"

/-- The replacement callback of `linkifyReferences`: split the captured group
on commas, trim each index, resolve each independently, rejoin with `", "`. -/
def renderGroup (sources : List Source) (p1 : List Char) : String :=
  let idxs := (splitOnChar ',' p1).map (fun l => String.mk (jsTrimL l))
  String.intercalate ", " (idxs.map (resolveIndex sources))

/-- Deterministic matcher for the citation regex `\[(\d+(?:,\s*\d+)*)\]`
after the opening bracket: `state = false` inside a digit run (`]`, a digit,
or `,` may follow), `state = true` just after a comma (whitespace then a
digit run must follow).  Returns the captured group and the remainder after
the closing bracket.  Backtracking cannot rescue a failed position for this
pattern, so the deterministic automaton matches exactly where the regex
does. -/
def matchAux : List Char → Bool → List Char → Option (List Char × List Char)
  | _, _, [] => none
  | acc, true, c :: rest =>
    if isSpaceJS c then matchAux (acc ++ [c]) true rest
    else if c.isDigit then matchAux (acc ++ [c]) false rest
    else none
  | acc, false, c :: rest =>
    if c == ']' then some (acc, rest)
    else if c.isDigit then matchAux (acc ++ [c]) false rest
    else if c == ',' then matchAux (acc ++ [c]) true rest
    else none

/-- Attempt the citation regex starting right after a `[`. -/
def matchCitation : List Char → Option (List Char × List Char)
  | [] => none
  | c :: rest => if c.isDigit then matchAux [c] false rest else none

/-- Process one inter-bracket segment: a segment opening with a full citation
group is replaced, any other segment keeps its opening bracket verbatim.
Matches of the citation regex never contain `[`, so they never span two
segments and the remainder of a matched segment is emitted unscanned, exactly
as `String.prototype.replace` resumes after a match. -/
def linkifySeg (sources : List Source) (seg : List Char) : List Char :=
  match matchCitation seg with
  | some m => (renderGroup sources m.1).data ++ m.2
  | none => '[' :: seg

/-- Embedding of the global replace of `linkifyReferences`:
matches start only at `[` and never contain `[`, so the global replace is the
per-segment map over a split at `[`. -/
def linkifyAux (sources : List Source) (cs : List Char) : List Char :=
  match splitOnChar '[' cs with
  | [] => []
  | s0 :: segs => s0 ++ (segs.map (linkifySeg sources)).flatten

/-- Embedding of `linkifyReferences` (src/content.js lines 276-288). -/
def linkifyReferences (text : String) (sources : List Source) : String :=
  String.mk (linkifyAux sources text.data)

/-- Embedding of `parseResult` of src/content.js (lines 203-243): run the section loop
from the defaults, then linkify the two narrative fields against the parsed
sources.  `none` models a thrown exception. -/
def parseResult (result : String) : Option FactCheckReport :=
  (runSections (defaultReport, "") (splitSections result.data)).map
    (fun st =>
      { st.1 with
        factCheck := linkifyReferences st.1.factCheck st.1.sources,
        context := linkifyReferences st.1.context st.1.sources })

/-- Embedding of `parseResult` of src/unnamed/part_001 (lines 433-477): a falsy input
(the empty string) short-circuits to the defaults, and no linkification is
applied. -/
def parseResultBg (result : String) : Option FactCheckReport :=
  if result = "" then some defaultReport
  else (runSections (defaultReport, "") (splitSections result.data)).map (fun st => st.1)

/-- Value of a hexadecimal digit, for the `0x` branch of `parseInt`. -/
def hexDigitVal (c : Char) : Option Nat :=
  let n := c.toNat
  if c.isDigit then some (n - 48)
  else
    let l := if 'A' ≤ c ∧ c ≤ 'F' then n + 32 else n
    if 97 ≤ l ∧ l ≤ 102 then some (l - 87) else none

def isHexDigit (c : Char) : Bool := (hexDigitVal c).isSome

/-- Longest digit run in the given base; `none` when it is empty (NaN). -/
def parseDigitsWith (base : Nat) (isD : Char → Bool) (val : Char → Nat)
    (cs : List Char) : Option Nat :=
  let ds := cs.takeWhile isD
  if ds.isEmpty then none
  else some (ds.foldl (fun acc c => acc * base + val c) 0)

/-- Magnitude part of JavaScript `parseInt(s)` with no radix argument:
a `0x`/`0X` head selects base 16, otherwise base 10. -/
def jsParseIntUnsigned : List Char → Option Nat
  | '0' :: c :: rest =>
    if c == 'x' || c == 'X' then
      parseDigitsWith 16 isHexDigit (fun d => (hexDigitVal d).getD 0) rest
    else
      parseDigitsWith 10 Char.isDigit (fun d => d.toNat - '0'.toNat) ('0' :: c :: rest)
  | cs => parseDigitsWith 10 Char.isDigit (fun d => d.toNat - '0'.toNat) cs

/-- JavaScript `parseInt(s)`: skip leading whitespace, optional sign, longest
digit run; `none` is NaN.  Exact integers stand in for IEEE doubles (report
percentages are far below the 2^53 bound where they differ). -/
def jsParseInt (s : String) : Option Int :=
  match s.data.dropWhile isSpaceJS with
  | '-' :: rest => (jsParseIntUnsigned rest).map (fun n => -(n : Int))
  | '+' :: rest => (jsParseIntUnsigned rest).map (fun n => (n : Int))
  | cs => (jsParseIntUnsigned cs).map (fun n => (n : Int))

/-- Truth-percentage merge of `aggregateResults` (src/unnamed/part_001 lines
397-410).  `Math.round((p + g) / 2)` on integers is `⌊(p + g + 1) / 2⌋`
(round half toward positive infinity). -/
def mergeTruth (pt gt : String) : String :=
  if pt != "N/A" && gt != "N/A" then
    match jsParseInt pt, jsParseInt gt with
    | some a, some b => toString ((a + b + 1).fdiv 2) ++ "%"
    | _, _ => "N/A"
  else if pt != "N/A" then pt
  else if gt != "N/A" then gt
  else "N/A"

/-- Source merge of `aggregateResults` (src/unnamed/part_001 lines 381-395):
start from the first report's sources; append each second-report source whose
url is not already present, re-indexed with the next position label. -/
def combineSources : List Source → List Source → List Source
  | acc, [] => acc
  | acc, g :: gs =>
    if acc.any (fun s => s.url == g.url) then combineSources acc gs
    else combineSources (acc ++ [⟨toString (acc.length + 1), g.title, g.url⟩]) gs

/-- The aggregated template literal of `aggregateResults` (src/unnamed/part_001
lines 413-424); source lines are numbered by position, not stored index. -/
def formatAggregated (combined : List Source) (avgTruth : String)
    (pd gd : FactCheckReport) : String :=
  "Sources:\n" ++
  String.intercalate "\n"
    (combined.enum.map (fun p =>
      toString (p.1 + 1) ++ ". [" ++ p.2.title ++ "](" ++ p.2.url ++ ")")) ++
  "\n\nTruth: " ++ avgTruth ++
  "\n\nFact Check (Perplexity): " ++ pd.factCheck ++
  "\n\nFact Check (Groq): " ++ gd.factCheck ++
  "\n\nContext: " ++ pd.context ++
  "\n\nAdditional Context: " ++ gd.context

/-- JavaScript truthiness of the result variables: `null` (modelled `none`)
and the empty string are falsy. -/
def isFalsyStr : Option String → Bool
  | none => true
  | some s => s == ""

/-- Embedding of `aggregateResults` (src/unnamed/part_001 lines 371-425).  A single truthy
result is returned unchanged; two truthy results are parsed, merged and
re-formatted; no truthy result yields the fixed fallback string.  `none`
models a thrown exception. -/
def aggregateResults (perplexityResult groqResult : Option String) : Option String :=
  if isFalsyStr perplexityResult && !isFalsyStr groqResult then groqResult
  else if !isFalsyStr perplexityResult && isFalsyStr groqResult then perplexityResult
  else if isFalsyStr perplexityResult && isFalsyStr groqResult then
    some "No results available from either API."
  else
    match perplexityResult, groqResult with
    | some p, some g =>
      (match parseResultBg p, parseResultBg g with
       | some pd, some gd =>
         some (formatAggregated (combineSources pd.sources gd.sources)
           (mergeTruth pd.truthPercentage gd.truthPercentage) pd gd)
       | _, _ => none)
    | _, _ => none

/-- The message sent back to the content script. -/
inductive OutMessage where
  | factCheckResult : String → OutMessage
  | factCheckError : String → OutMessage
deriving DecidableEq

/-- Result dispatch of `initiateFactCheck` (src/unnamed/part_001 lines
112-125): after both backend promises settle (a failed backend leaves its
result `null`), the aggregate is sent as a `factCheckResult` message; only a
thrown exception would be reported as `factCheckError`. -/
def settleOutcome (perplexityResult groqResult : Option String) : OutMessage :=
  match aggregateResults perplexityResult groqResult with
  | some s => OutMessage.factCheckResult s
  | none => OutMessage.factCheckError "Error in fact checking"

/-- Spec-side reading of "the entire content of the block after the first
colon, trimmed" (the wording of the Truth-extraction claim; the code instead
keeps only the part before the second colon). -/
def afterFirstColonTrimmed (B : List Char) : String :=
  String.mk (jsTrimL (joinColon ((splitOnChar ':' B).drop 1)))

/-- Content the code stores for a `Truth:` block: `split(':')[1].trim()`. -/
def truthContent (B : List Char) : String :=
  String.mk (jsTrimL (((splitOnChar ':' B).get? 1).getD []))

/-- The sections of an input, as `parseResult` computes them. -/
def sectionsOf (s : String) : List (List Char) := splitSections s.data

/-- Last element of a list satisfying `p` (the survivor of repeated
overwrites in the section loop). -/
def lastMatching (p : List Char → Bool) : List (List Char) → Option (List Char)
  | [] => none
  | b :: rest =>
    match lastMatching p rest with
    | some B => some B
    | none => if p b then some b else none

/-- Accumulated sources of all `Sources:` blocks, in order (what the section
loop collects into `data.sources`). -/
def collectSources : List (List Char) → List Source
  | [] => []
  | b :: rest =>
    (if startsWithL srcLabel b then extractSources b else []) ++ collectSources rest

/-- A citation group past its first index: for each pair `(w, d)` a comma,
then whitespace `w`, then the digit run `d`.  `d1 ++ groupTail pairs` spells
out a full match of `\d+(?:,\s*\d+)*`. -/
def groupTail (pairs : List (List Char × List Char)) : List Char :=
  (pairs.map (fun p => ',' :: (p.1 ++ p.2))).flatten

/-! ### Character and list basics -/

theorem digit_ne {c d : Char} (h : c.isDigit = true) (h2 : d.isDigit = false) :
    ¬c = d := by
  rintro rfl
  rw [h] at h2
  exact Bool.noConfusion h2

theorem space_ne {c d : Char} (h : isSpaceJS c = true) (h2 : isSpaceJS d = false) :
    ¬c = d := by
  rintro rfl
  rw [h] at h2
  exact Bool.noConfusion h2

theorem digit_not_space {c : Char} (h : c.isDigit = true) : isSpaceJS c = false := by
  simp only [isSpaceJS, decide_eq_false_iff_not]
  rintro (rfl | rfl | rfl | rfl | rfl | rfl) <;> exact absurd h (by decide)

theorem startsWithL_iff {p t : List Char} :
    startsWithL p t = true ↔ ∃ r, t = p ++ r := by
  induction p generalizing t with
  | nil =>
    simp only [startsWithL, List.nil_append, true_iff]
    exact ⟨t, rfl⟩
  | cons a ps ih =>
    cases t with
    | nil => simp [startsWithL]
    | cons c cs =>
      simp only [startsWithL, Bool.and_eq_true, beq_iff_eq, ih, List.cons_append,
        List.cons.injEq]
      constructor
      · rintro ⟨rfl, r, rfl⟩
        exact ⟨r, rfl, rfl⟩
      · rintro ⟨r, rfl, rfl⟩
        exact ⟨rfl, r, rfl⟩

theorem splitOnChar_ne_nil (sep : Char) (cs : List Char) : splitOnChar sep cs ≠ [] := by
  cases cs with
  | nil => simp [splitOnChar]
  | cons c rest =>
    simp only [splitOnChar]
    split
    · simp
    · split <;> simp

theorem splitOnChar_append {sep : Char} {x : List Char} (ys : List Char)
    (h : ∀ c ∈ x, ¬c = sep) :
    splitOnChar sep (x ++ ys) =
      (x ++ (splitOnChar sep ys).headD []) :: (splitOnChar sep ys).tail := by
  induction x with
  | nil =>
    simp only [List.nil_append]
    cases hsp : splitOnChar sep ys with
    | nil => exact absurd hsp (splitOnChar_ne_nil sep ys)
    | cons a l => simp
  | cons c x ih =>
    have hc : (c == sep) = false :=
      beq_eq_false_iff_ne.mpr (h c (List.mem_cons_self c x))
    have hx : ∀ d ∈ x, ¬d = sep := fun d hd => h d (List.mem_cons_of_mem _ hd)
    rw [List.cons_append]
    simp only [splitOnChar, hc, Bool.false_eq_true, if_false, List.append_eq]
    rw [ih hx]
    rfl

theorem splitOnChar_no_sep {sep : Char} {x : List Char} (h : ∀ c ∈ x, ¬c = sep) :
    splitOnChar sep x = [x] := by
  have := splitOnChar_append (x := x) [] h
  simpa [splitOnChar] using this

theorem splitOnChar_append_sep {sep : Char} {x : List Char} (ys : List Char)
    (h : ∀ c ∈ x, ¬c = sep) :
    splitOnChar sep (x ++ sep :: ys) = x :: splitOnChar sep ys := by
  rw [splitOnChar_append (sep :: ys) h]
  simp [splitOnChar]

theorem dropWhile_append_all {p : Char → Bool} {w : List Char} (d : List Char)
    (h : ∀ c ∈ w, p c = true) :
    (w ++ d).dropWhile p = d.dropWhile p := by
  induction w with
  | nil => rfl
  | cons c w ih =>
    simp only [List.cons_append, List.dropWhile_cons, h c (List.mem_cons_self c w),
      if_true]
    exact ih (fun x hx => h x (List.mem_cons_of_mem _ hx))

theorem dropWhile_all_false {p : Char → Bool} {l : List Char}
    (h : ∀ c ∈ l, p c = false) :
    l.dropWhile p = l := by
  cases l with
  | nil => rfl
  | cons c rest =>
    simp [List.dropWhile_cons, h c (List.mem_cons_self c rest)]

theorem takeWhile_append_all {p : Char → Bool} {w : List Char} (d : List Char)
    (h : ∀ c ∈ w, p c = true) :
    (w ++ d).takeWhile p = w ++ d.takeWhile p := by
  induction w with
  | nil => rfl
  | cons c w ih =>
    simp only [List.cons_append, List.takeWhile_cons, h c (List.mem_cons_self c w),
      if_true]
    simp [ih (fun x hx => h x (List.mem_cons_of_mem _ hx))]

theorem takeWhile_all_false {p : Char → Bool} {l : List Char}
    (h : ∀ c ∈ l, p c = false) :
    l.takeWhile p = [] := by
  cases l with
  | nil => rfl
  | cons c rest =>
    simp [List.takeWhile_cons, h c (List.mem_cons_self c rest)]

theorem jsTrimL_ws_digits {w d : List Char} (hw : ∀ c ∈ w, isSpaceJS c = true)
    (hd : ∀ c ∈ d, c.isDigit = true) :
    jsTrimL (w ++ d) = d := by
  have hd' : ∀ c ∈ d, isSpaceJS c = false := fun c hc => digit_not_space (hd c hc)
  unfold jsTrimL
  rw [dropWhile_append_all d hw, dropWhile_all_false hd',
    dropWhile_all_false (fun c hc => hd' c (List.mem_reverse.mp hc)),
    List.reverse_reverse]

theorem jsTrimL_digits {d : List Char} (hd : ∀ c ∈ d, c.isDigit = true) :
    jsTrimL d = d :=
  jsTrimL_ws_digits (w := []) (by intro c hc; cases hc) hd

/-! ### Citation matcher: completeness and soundness -/

theorem matchAux_digits {d : List Char} (hd : ∀ c ∈ d, c.isDigit = true)
    (acc rest : List Char) :
    matchAux acc false (d ++ rest) = matchAux (acc ++ d) false rest := by
  induction d generalizing acc with
  | nil => simp
  | cons c dd ih =>
    have hc : c.isDigit = true := hd c (List.mem_cons_self c dd)
    have h1 : (c == ']') = false :=
      beq_eq_false_iff_ne.mpr (digit_ne hc (by decide))
    simp only [List.cons_append, matchAux, h1, Bool.false_eq_true, if_false, hc,
      if_true, List.append_eq]
    rw [ih (fun x hx => hd x (List.mem_cons_of_mem _ hx))]
    simp

theorem matchAux_ws {w : List Char} (hw : ∀ c ∈ w, isSpaceJS c = true)
    (acc rest : List Char) :
    matchAux acc true (w ++ rest) = matchAux (acc ++ w) true rest := by
  induction w generalizing acc with
  | nil => simp
  | cons c ww ih =>
    have hc : isSpaceJS c = true := hw c (List.mem_cons_self c ww)
    simp only [List.cons_append, matchAux, hc, if_true, List.append_eq]
    rw [ih (fun x hx => hw x (List.mem_cons_of_mem _ hx))]
    simp

theorem matchAux_enter {d : List Char} (hne : d ≠ [])
    (hd : ∀ c ∈ d, c.isDigit = true) (acc rest : List Char) :
    matchAux acc true (d ++ rest) = matchAux (acc ++ d) false rest := by
  cases d with
  | nil => exact absurd rfl hne
  | cons c dd =>
    have hc : c.isDigit = true := hd c (List.mem_cons_self c dd)
    have h1 : isSpaceJS c = false := digit_not_space hc
    simp only [List.cons_append, matchAux, h1, Bool.false_eq_true, if_false, hc,
      if_true, List.append_eq]
    rw [matchAux_digits (fun x hx => hd x (List.mem_cons_of_mem _ hx))]
    simp

theorem matchAux_complete (pairs : List (List Char × List Char))
    (h : ∀ p ∈ pairs,
      (∀ c ∈ p.1, isSpaceJS c = true) ∧ (∀ c ∈ p.2, c.isDigit = true) ∧ p.2 ≠ [])
    (acc b : List Char) :
    matchAux acc false (groupTail pairs ++ ']' :: b) =
      some (acc ++ groupTail pairs, b) := by
  induction pairs generalizing acc with
  | nil => simp [groupTail, matchAux]
  | cons p ps ih =>
    obtain ⟨hw, hd, hne⟩ := h p (List.mem_cons_self p ps)
    have hps : ∀ q ∈ ps,
        (∀ c ∈ q.1, isSpaceJS c = true) ∧ (∀ c ∈ q.2, c.isDigit = true) ∧ q.2 ≠ [] :=
      fun q hq => h q (List.mem_cons_of_mem _ hq)
    have hgt : groupTail (p :: ps) = ',' :: (p.1 ++ (p.2 ++ groupTail ps)) := by
      simp [groupTail]
    rw [hgt]
    simp only [List.cons_append, List.append_assoc]
    simp only [matchAux, show ((',' : Char) == ']') = false from by decide,
      Bool.false_eq_true, if_false, show (',' : Char).isDigit = false from by decide,
      show ((',' : Char) == ',') = true from by decide, if_true, List.append_eq]
    rw [matchAux_ws hw, matchAux_enter hne hd, ih hps]
    simp

theorem matchCitation_complete {d1 : List Char}
    (pairs : List (List Char × List Char)) (h1ne : d1 ≠ [])
    (h1 : ∀ c ∈ d1, c.isDigit = true)
    (hp : ∀ p ∈ pairs,
      (∀ c ∈ p.1, isSpaceJS c = true) ∧ (∀ c ∈ p.2, c.isDigit = true) ∧ p.2 ≠ [])
    (b : List Char) :
    matchCitation (d1 ++ groupTail pairs ++ ']' :: b) =
      some (d1 ++ groupTail pairs, b) := by
  cases d1 with
  | nil => exact absurd rfl h1ne
  | cons c dd =>
    have hc : c.isDigit = true := h1 c (List.mem_cons_self c dd)
    simp only [List.cons_append, List.append_assoc, matchCitation, hc, if_true]
    rw [matchAux_digits (fun x hx => h1 x (List.mem_cons_of_mem _ hx)) [c]
      (groupTail pairs ++ ']' :: b)]
    rw [matchAux_complete pairs hp]
    simp

theorem matchAux_sound : ∀ {cs acc : List Char} {st : Bool} {p r : List Char},
    matchAux acc st cs = some (p, r) →
    ∃ mid, cs = mid ++ ']' :: r ∧ p = acc ++ mid ∧ (∀ c ∈ mid, ¬c = ']') ∧
      (∀ c ∈ mid, c.isDigit = true ∨ c = ',' ∨ isSpaceJS c = true) := by
  intro cs
  induction cs with
  | nil => intro acc st p r h; cases st <;> simp [matchAux] at h
  | cons c rest ih =>
    intro acc st p r h
    cases st with
    | true =>
      rw [matchAux] at h
      split at h
      next hsp =>
        obtain ⟨mid, h1, h2, h3, h4⟩ := ih h
        refine ⟨c :: mid, by simp [h1], by simp [h2], ?_, ?_⟩
        · intro d hd
          rcases List.mem_cons.mp hd with rfl | hd
          · exact space_ne hsp (by decide)
          · exact h3 d hd
        · intro d hd
          rcases List.mem_cons.mp hd with rfl | hd
          · exact Or.inr (Or.inr hsp)
          · exact h4 d hd
      next hsp =>
        split at h
        next hdig =>
          obtain ⟨mid, h1, h2, h3, h4⟩ := ih h
          refine ⟨c :: mid, by simp [h1], by simp [h2], ?_, ?_⟩
          · intro d hd
            rcases List.mem_cons.mp hd with rfl | hd
            · exact digit_ne hdig (by decide)
            · exact h3 d hd
          · intro d hd
            rcases List.mem_cons.mp hd with rfl | hd
            · exact Or.inl hdig
            · exact h4 d hd
        next hdig => exact absurd h (by simp)
    | false =>
      rw [matchAux] at h
      split at h
      next hbr =>
        have hc : c = ']' := beq_iff_eq.mp hbr
        have hinj := Option.some.inj h
        have hp : p = acc := (congrArg Prod.fst hinj).symm
        have hr : r = rest := (congrArg Prod.snd hinj).symm
        subst hc hp hr
        exact ⟨[], rfl, by simp, by simp, by simp⟩
      next hbr =>
        split at h
        next hdig =>
          obtain ⟨mid, h1, h2, h3, h4⟩ := ih h
          refine ⟨c :: mid, by simp [h1], by simp [h2], ?_, ?_⟩
          · intro d hd
            rcases List.mem_cons.mp hd with rfl | hd
            · exact digit_ne hdig (by decide)
            · exact h3 d hd
          · intro d hd
            rcases List.mem_cons.mp hd with rfl | hd
            · exact Or.inl hdig
            · exact h4 d hd
        next hdig =>
          split at h
          next hcm =>
            have hc : c = ',' := beq_iff_eq.mp hcm
            obtain ⟨mid, h1, h2, h3, h4⟩ := ih h
            refine ⟨c :: mid, by simp [h1], by simp [h2], ?_, ?_⟩
            · intro d hd
              rcases List.mem_cons.mp hd with rfl | hd
              · subst hc; decide
              · exact h3 d hd
            · intro d hd
              rcases List.mem_cons.mp hd with rfl | hd
              · exact Or.inr (Or.inl hc)
              · exact h4 d hd
          next hcm => exact absurd h (by simp)

theorem matchCitation_sound {cs p r : List Char}
    (h : matchCitation cs = some (p, r)) :
    ∃ mid, cs = mid ++ ']' :: r ∧ p = mid ∧ (∀ c ∈ mid, ¬c = ']') ∧
      (∀ c ∈ mid, c.isDigit = true ∨ c = ',' ∨ isSpaceJS c = true) := by
  cases cs with
  | nil => simp [matchCitation] at h
  | cons c rest =>
    rw [matchCitation] at h
    split at h
    next hdig =>
      obtain ⟨mid, h1, h2, h3, h4⟩ := matchAux_sound h
      refine ⟨c :: mid, by simp [h1], by simp [h2], ?_, ?_⟩
      · intro d hd
        rcases List.mem_cons.mp hd with rfl | hd
        · exact digit_ne hdig (by decide)
        · exact h3 d hd
      · intro d hd
        rcases List.mem_cons.mp hd with rfl | hd
        · exact Or.inl hdig
        · exact h4 d hd
    next hdig => exact absurd h (by simp)

theorem before_bracket_unique : ∀ {x x2 y y2 : List Char},
    x ++ ']' :: y = x2 ++ ']' :: y2 →
    (∀ c ∈ x, ¬c = ']') → (∀ c ∈ x2, ¬c = ']') → x = x2 ∧ y = y2 := by
  intro x
  induction x with
  | nil =>
    intro x2 y y2 h hx hx2
    cases x2 with
    | nil =>
      simp only [List.nil_append, List.cons.injEq] at h
      exact ⟨rfl, h.2⟩
    | cons a l =>
      simp only [List.nil_append, List.cons_append, List.cons.injEq] at h
      exact absurd h.1.symm (hx2 a (List.mem_cons_self a l))
  | cons a l ih =>
    intro x2 y y2 h hx hx2
    cases x2 with
    | nil =>
      simp only [List.cons_append, List.nil_append, List.cons.injEq] at h
      exact absurd h.1 (hx a (List.mem_cons_self a l))
    | cons a2 l2 =>
      simp only [List.cons_append, List.cons.injEq] at h
      obtain ⟨rfl, h2⟩ := h
      obtain ⟨rfl, hy⟩ := ih h2 (fun d hd => hx d (List.mem_cons_of_mem _ hd))
        (fun d hd => hx2 d (List.mem_cons_of_mem _ hd))
      exact ⟨rfl, hy⟩

theorem matchCitation_none_of_bad {u b : List Char}
    (hbad : ∃ c ∈ u, c.isDigit = false ∧ ¬c = ',' ∧ isSpaceJS c = false)
    (hnb : ∀ c ∈ u, ¬c = ']') :
    matchCitation (u ++ ']' :: b) = none := by
  cases hm : matchCitation (u ++ ']' :: b) with
  | none => rfl
  | some pr =>
    obtain ⟨p, r⟩ := pr
    obtain ⟨mid, heq, -, hmid, hgood⟩ := matchCitation_sound hm
    obtain ⟨hu, -⟩ := before_bracket_unique heq hnb hmid
    obtain ⟨c, hc, hc1, hc2, hc3⟩ := hbad
    rcases hgood c (hu ▸ hc) with hg | hg | hg
    · rw [hc1] at hg; exact absurd hg (by simp)
    · exact absurd hg hc2
    · rw [hc3] at hg; exact absurd hg (by simp)

/-! ### Linkifier decomposition -/

theorem linkifyAux_eq (sources : List Source) (b : List Char) :
    linkifyAux sources b = (splitOnChar '[' b).headD [] ++
      ((splitOnChar '[' b).tail.map (linkifySeg sources)).flatten := by
  unfold linkifyAux
  cases hsp : splitOnChar '[' b with
  | nil => exact absurd hsp (splitOnChar_ne_nil '[' b)
  | cons h0 t0 => simp

theorem linkifyAux_no_bracket {sources : List Source} {cs : List Char}
    (h : ∀ c ∈ cs, ¬c = '[') :
    linkifyAux sources cs = cs := by
  unfold linkifyAux
  rw [splitOnChar_no_sep h]
  simp

theorem linkifyReferences_no_bracket {text : String} {sources : List Source}
    (h : ∀ c ∈ text.data, ¬c = '[') :
    linkifyReferences text sources = text := by
  unfold linkifyReferences
  rw [linkifyAux_no_bracket h]

theorem groupTail_no_bracket {pairs : List (List Char × List Char)}
    (hp : ∀ p ∈ pairs,
      (∀ c ∈ p.1, isSpaceJS c = true) ∧ (∀ c ∈ p.2, c.isDigit = true) ∧ p.2 ≠ [])
    {c : Char} (hc : c ∈ groupTail pairs) : ¬c = '[' ∧ ¬c = ']' := by
  unfold groupTail at hc
  rw [List.mem_flatten] at hc
  obtain ⟨l, hl, hcl⟩ := hc
  rw [List.mem_map] at hl
  obtain ⟨p, hp2, rfl⟩ := hl
  obtain ⟨hw, hd, -⟩ := hp p hp2
  rcases List.mem_cons.mp hcl with rfl | hcl
  · exact ⟨by decide, by decide⟩
  · rcases List.mem_append.mp hcl with hcw | hcd
    · exact ⟨space_ne (hw c hcw) (by decide), space_ne (hw c hcw) (by decide)⟩
    · exact ⟨digit_ne (hd c hcd) (by decide), digit_ne (hd c hcd) (by decide)⟩

theorem linkifyAux_group {sources : List Source} {a b d1 : List Char}
    {pairs : List (List Char × List Char)}
    (ha : ∀ c ∈ a, ¬c = '[') (h1ne : d1 ≠ []) (h1 : ∀ c ∈ d1, c.isDigit = true)
    (hp : ∀ p ∈ pairs,
      (∀ c ∈ p.1, isSpaceJS c = true) ∧ (∀ c ∈ p.2, c.isDigit = true) ∧ p.2 ≠ []) :
    linkifyAux sources (a ++ '[' :: (d1 ++ groupTail pairs ++ ']' :: b)) =
      a ++ (renderGroup sources (d1 ++ groupTail pairs)).data ++
        linkifyAux sources b := by
  have hg_nb : ∀ c ∈ (d1 ++ groupTail pairs) ++ [']'], ¬c = '[' := by
    intro c hc
    rcases List.mem_append.mp hc with hc | hc
    · rcases List.mem_append.mp hc with hc | hc
      · exact digit_ne (h1 c hc) (by decide)
      · exact (groupTail_no_bracket hp hc).1
    · simp only [List.mem_singleton] at hc
      subst hc
      decide
  have hshape : ∀ z : List Char, (d1 ++ groupTail pairs ++ ']' :: z) =
      ((d1 ++ groupTail pairs) ++ [']']) ++ z := by
    intro z
    simp
  rw [linkifyAux_eq sources (a ++ '[' :: (d1 ++ groupTail pairs ++ ']' :: b))]
  rw [splitOnChar_append_sep (d1 ++ groupTail pairs ++ ']' :: b) ha]
  rw [hshape b, splitOnChar_append (x := (d1 ++ groupTail pairs) ++ [']']) b hg_nb]
  simp only [List.headD_cons, List.tail_cons, List.map_cons, List.flatten_cons]
  have hseg : linkifySeg sources
      (((d1 ++ groupTail pairs) ++ [']']) ++ (splitOnChar '[' b).headD []) =
      (renderGroup sources (d1 ++ groupTail pairs)).data ++
        (splitOnChar '[' b).headD [] := by
    unfold linkifySeg
    rw [show ((d1 ++ groupTail pairs) ++ [']']) ++ (splitOnChar '[' b).headD [] =
      d1 ++ groupTail pairs ++ ']' :: (splitOnChar '[' b).headD [] from by simp]
    rw [matchCitation_complete pairs h1ne h1 hp]
  rw [hseg, linkifyAux_eq sources b]
  simp

theorem linkifyAux_bad {sources : List Source} {a u b : List Char}
    (ha : ∀ c ∈ a, ¬c = '[') (hu : ∀ c ∈ u, ¬c = '[') (hub : ∀ c ∈ u, ¬c = ']')
    (hbad : ∃ c ∈ u, c.isDigit = false ∧ ¬c = ',' ∧ isSpaceJS c = false) :
    linkifyAux sources (a ++ '[' :: (u ++ ']' :: b)) =
      a ++ '[' :: (u ++ ']' :: linkifyAux sources b) := by
  have hg_nb : ∀ c ∈ u ++ [']'], ¬c = '[' := by
    intro c hc
    rcases List.mem_append.mp hc with hc | hc
    · exact hu c hc
    · simp only [List.mem_singleton] at hc
      subst hc
      decide
  rw [linkifyAux_eq sources (a ++ '[' :: (u ++ ']' :: b))]
  rw [splitOnChar_append_sep (u ++ ']' :: b) ha]
  rw [show u ++ ']' :: b = (u ++ [']']) ++ b from by simp]
  rw [splitOnChar_append (x := u ++ [']']) b hg_nb]
  simp only [List.headD_cons, List.tail_cons, List.map_cons, List.flatten_cons]
  have hseg : linkifySeg sources ((u ++ [']']) ++ (splitOnChar '[' b).headD []) =
      '[' :: (u ++ ']' :: (splitOnChar '[' b).headD []) := by
    unfold linkifySeg
    rw [show (u ++ [']']) ++ (splitOnChar '[' b).headD [] =
      u ++ ']' :: (splitOnChar '[' b).headD [] from by simp]
    rw [matchCitation_none_of_bad hbad hub]
  rw [hseg, linkifyAux_eq sources b]
  simp

theorem splitOnChar_groupTail {x : List Char} {ps : List (List Char × List Char)}
    (hx : ∀ c ∈ x, ¬c = ',')
    (hp : ∀ p ∈ ps,
      (∀ c ∈ p.1, isSpaceJS c = true) ∧ (∀ c ∈ p.2, c.isDigit = true) ∧ p.2 ≠ []) :
    splitOnChar ',' (x ++ groupTail ps) = x :: ps.map (fun p => p.1 ++ p.2) := by
  induction ps generalizing x with
  | nil =>
    simp only [groupTail, List.map_nil, List.flatten_nil, List.append_nil]
    exact splitOnChar_no_sep hx
  | cons p ps ih =>
    obtain ⟨hw, hd, -⟩ := hp p (List.mem_cons_self p ps)
    have hgt : groupTail (p :: ps) = ',' :: ((p.1 ++ p.2) ++ groupTail ps) := by
      simp [groupTail]
    rw [hgt, splitOnChar_append_sep ((p.1 ++ p.2) ++ groupTail ps) hx]
    have hx2 : ∀ c ∈ p.1 ++ p.2, ¬c = ',' := by
      intro c hc
      rcases List.mem_append.mp hc with hc | hc
      · exact space_ne (hw c hc) (by decide)
      · exact digit_ne (hd c hc) (by decide)
    rw [ih hx2 (fun q hq => hp q (List.mem_cons_of_mem _ hq))]
    simp

theorem renderGroup_eq {sources : List Source} {d1 : List Char}
    {pairs : List (List Char × List Char)}
    (h1 : ∀ c ∈ d1, c.isDigit = true)
    (hp : ∀ p ∈ pairs,
      (∀ c ∈ p.1, isSpaceJS c = true) ∧ (∀ c ∈ p.2, c.isDigit = true) ∧ p.2 ≠ []) :
    renderGroup sources (d1 ++ groupTail pairs) =
      String.intercalate ", " ((d1 :: pairs.map (fun p => p.2)).map
        (fun d => resolveIndex sources (String.mk d))) := by
  unfold renderGroup
  have hx : ∀ c ∈ d1, ¬c = ',' := fun c hc => digit_ne (h1 c hc) (by decide)
  rw [splitOnChar_groupTail hx hp]
  simp only [List.map_cons, List.map_map]
  congr 2
  · rw [jsTrimL_digits h1]
  · apply List.map_congr_left
    intro p hpm
    obtain ⟨hw, hd, -⟩ := hp p hpm
    simp only [Function.comp_apply]
    rw [jsTrimL_ws_digits hw hd]

/-! ### Section-loop characterization -/

theorem startsWith_head_ne {l1 l2 t : List Char} {c1 c2 : Char} {m1 m2 : List Char}
    (e1 : l1 = c1 :: m1) (e2 : l2 = c2 :: m2) (hne : ¬c1 = c2)
    (h : startsWithL l1 t = true) : startsWithL l2 t = false := by
  subst e1 e2
  cases hs : startsWithL (c2 :: m2) t with
  | false => rfl
  | true =>
    obtain ⟨r, rfl⟩ := startsWithL_iff.mp h
    obtain ⟨r2, he⟩ := startsWithL_iff.mp hs
    have h1 : ((c1 :: m1) ++ r).head? = some c1 := rfl
    rw [he] at h1
    exact absurd (Option.some.inj h1).symm hne

theorem stepT_truth {st : FactCheckReport × String} {sec : List Char} :
    (sectionStepT st sec).1.truthPercentage =
      if startsWithL truthLabel sec = true then truthContent sec
      else st.1.truthPercentage := by
  by_cases h2 : startsWithL truthLabel sec = true
  · have h1 : startsWithL srcLabel sec = false :=
      startsWith_head_ne rfl rfl (by decide) h2
    simp [sectionStepT, h1, h2, truthContent]
  · rw [if_neg h2]
    unfold sectionStepT
    by_cases h1 : startsWithL srcLabel sec = true
    · simp [h1]
    · simp only [h1, h2, Bool.false_eq_true, if_false]
      split_ifs <;> rfl

theorem stepT_sources {st : FactCheckReport × String} {sec : List Char} :
    (sectionStepT st sec).1.sources =
      if startsWithL srcLabel sec = true then st.1.sources ++ extractSources sec
      else st.1.sources := by
  unfold sectionStepT
  by_cases h1 : startsWithL srcLabel sec = true
  · simp [h1]
  · simp only [h1, Bool.false_eq_true, if_false]
    split_ifs <;> rfl

theorem stepT_fc_absent {st : FactCheckReport × String} {sec : List Char}
    (h : startsWithL fcLabel sec = false) (hcur : ¬st.2 = "factCheck") :
    (sectionStepT st sec).1.factCheck = st.1.factCheck ∧
      ¬(sectionStepT st sec).2 = "factCheck" := by
  unfold sectionStepT
  split_ifs with hA hB hC hD hE
  · exact ⟨rfl, by simp⟩
  · exact ⟨rfl, by simp⟩
  · exact absurd hC (by simp [h])
  · exact ⟨rfl, by simp⟩
  · exact ⟨rfl, by simp [hE]⟩
  · exact ⟨rfl, by simpa using hcur⟩

theorem stepT_ctx_absent {st : FactCheckReport × String} {sec : List Char}
    (h : startsWithL ctxLabel sec = false) (hcur : ¬st.2 = "context") :
    (sectionStepT st sec).1.context = st.1.context ∧
      ¬(sectionStepT st sec).2 = "context" := by
  unfold sectionStepT
  split_ifs with hA hB hC hD hE
  · exact ⟨rfl, by simp⟩
  · exact ⟨rfl, by simp⟩
  · exact ⟨rfl, by simp⟩
  · exact absurd hD (by simp [h])
  · exact ⟨rfl, by simp [hE]⟩
  · exact ⟨rfl, by simpa using hcur⟩

theorem runT_truth : ∀ {secs : List (List Char)} {st : FactCheckReport × String},
    (runSectionsT st secs).1.truthPercentage =
      match lastMatching (fun b => startsWithL truthLabel b) secs with
      | some B => truthContent B
      | none => st.1.truthPercentage := by
  intro secs
  induction secs with
  | nil => intro st; rfl
  | cons b rest ih =>
    intro st
    show (runSectionsT (sectionStepT st b) rest).1.truthPercentage = _
    rw [ih]
    cases hlm : lastMatching (fun b => startsWithL truthLabel b) rest with
    | some B => simp [lastMatching, hlm]
    | none =>
      simp only [lastMatching, hlm]
      rw [stepT_truth]
      by_cases hb : startsWithL truthLabel b = true
      · simp [hb]
      · simp [hb]

theorem runT_sources : ∀ {secs : List (List Char)} {st : FactCheckReport × String},
    (runSectionsT st secs).1.sources = st.1.sources ++ collectSources secs := by
  intro secs
  induction secs with
  | nil => intro st; simp [collectSources, runSectionsT]
  | cons b rest ih =>
    intro st
    show (runSectionsT (sectionStepT st b) rest).1.sources = _
    rw [ih, stepT_sources]
    have hc : collectSources (b :: rest) =
        (if startsWithL srcLabel b = true then extractSources b else []) ++
          collectSources rest := rfl
    rw [hc]
    by_cases h1 : startsWithL srcLabel b = true
    · simp [h1]
    · simp [h1]

theorem runT_fc_absent : ∀ {secs : List (List Char)} {st : FactCheckReport × String},
    (∀ b ∈ secs, startsWithL fcLabel b = false) → ¬st.2 = "factCheck" →
    (runSectionsT st secs).1.factCheck = st.1.factCheck ∧
      ¬(runSectionsT st secs).2 = "factCheck" := by
  intro secs
  induction secs with
  | nil => intro st _ hcur; exact ⟨rfl, hcur⟩
  | cons b rest ih =>
    intro st h hcur
    have hb := h b (List.mem_cons_self b rest)
    obtain ⟨h1, h2⟩ := stepT_fc_absent hb hcur
    obtain ⟨h3, h4⟩ := ih (fun x hx => h x (List.mem_cons_of_mem _ hx)) h2
    exact ⟨h3.trans h1, h4⟩

theorem runT_ctx_absent : ∀ {secs : List (List Char)} {st : FactCheckReport × String},
    (∀ b ∈ secs, startsWithL ctxLabel b = false) → ¬st.2 = "context" →
    (runSectionsT st secs).1.context = st.1.context ∧
      ¬(runSectionsT st secs).2 = "context" := by
  intro secs
  induction secs with
  | nil => intro st _ hcur; exact ⟨rfl, hcur⟩
  | cons b rest ih =>
    intro st h hcur
    have hb := h b (List.mem_cons_self b rest)
    obtain ⟨h1, h2⟩ := stepT_ctx_absent hb hcur
    obtain ⟨h3, h4⟩ := ih (fun x hx => h x (List.mem_cons_of_mem _ hx)) h2
    exact ⟨h3.trans h1, h4⟩

theorem runT_append : ∀ {l1 l2 : List (List Char)} {st : FactCheckReport × String},
    runSectionsT st (l1 ++ l2) = runSectionsT (runSectionsT st l1) l2 := by
  intro l1
  induction l1 with
  | nil => intro l2 st; rfl
  | cons b rest ih => intro l2 st; exact ih

theorem sectionStep_eq (st : FactCheckReport × String) (sec : List Char) :
    sectionStep st sec = some (sectionStepT st sec) := by
  unfold sectionStep sectionStepT
  by_cases h1 : startsWithL srcLabel sec = true
  · simp [h1]
  · by_cases h2 : startsWithL truthLabel sec = true
    · simp only [h1, h2, Bool.false_eq_true, if_false, if_true]
      obtain ⟨r, rfl⟩ := startsWithL_iff.mp h2
      have hsp : splitOnChar ':' (truthLabel ++ r) = "Truth".data :: splitOnChar ':' r := by
        have he : truthLabel ++ r = "Truth".data ++ ':' :: r := rfl
        rw [he, splitOnChar_append_sep r (by decide)]
      rw [hsp]
      cases hc : splitOnChar ':' r with
      | nil => exact absurd hc (splitOnChar_ne_nil ':' r)
      | cons p ps => simp
    · simp only [h1, h2, Bool.false_eq_true, if_false]
      split_ifs <;> rfl

theorem runSections_eq : ∀ (secs : List (List Char)) (st : FactCheckReport × String),
    runSections st secs = some (runSectionsT st secs) := by
  intro secs
  induction secs with
  | nil => intro st; rfl
  | cons b rest ih =>
    intro st
    show (match sectionStep st b with
      | some st2 => runSections st2 rest
      | none => none) = _
    rw [sectionStep_eq st b]
    exact ih (sectionStepT st b)

theorem parseResult_eq (s : String) :
    parseResult s = some
      { (runSectionsT (defaultReport, "") (splitSections s.data)).1 with
        factCheck := linkifyReferences
          (runSectionsT (defaultReport, "") (splitSections s.data)).1.factCheck
          (runSectionsT (defaultReport, "") (splitSections s.data)).1.sources,
        context := linkifyReferences
          (runSectionsT (defaultReport, "") (splitSections s.data)).1.context
          (runSectionsT (defaultReport, "") (splitSections s.data)).1.sources } := by
  unfold parseResult
  rw [runSections_eq]
  rfl

theorem parseResultBg_eq (s : String) (hne : ¬s = "") :
    parseResultBg s =
      some (runSectionsT (defaultReport, "") (splitSections s.data)).1 := by
  unfold parseResultBg
  rw [if_neg hne, runSections_eq]
  rfl

/-! ### Source-merge characterization -/

theorem any_url_iff {acc : List Source} {u : String} :
    acc.any (fun s => s.url == u) = true ↔ ∃ s ∈ acc, s.url = u := by
  simp [List.any_eq_true]

theorem combineSources_skip {acc : List Source} {g : Source} {gs : List Source}
    (h : acc.any (fun s => s.url == g.url) = true) :
    combineSources acc (g :: gs) = combineSources acc gs := by
  simp [combineSources, h]

theorem combineSources_push {acc : List Source} {g : Source} {gs : List Source}
    (h : acc.any (fun s => s.url == g.url) = false) :
    combineSources acc (g :: gs) =
      combineSources (acc ++ [⟨toString (acc.length + 1), g.title, g.url⟩]) gs := by
  simp [combineSources, h]

theorem combineSources_extends : ∀ (gs acc : List Source),
    ∃ t, combineSources acc gs = acc ++ t := by
  intro gs
  induction gs with
  | nil => intro acc; exact ⟨[], by simp [combineSources]⟩
  | cons g gs ih =>
    intro acc
    by_cases h : acc.any (fun s => s.url == g.url) = true
    · rw [combineSources_skip h]
      exact ih acc
    · rw [combineSources_push (Bool.not_eq_true _ ▸ h)]
      obtain ⟨t, ht⟩ := ih (acc ++ [⟨toString (acc.length + 1), g.title, g.url⟩])
      exact ⟨⟨toString (acc.length + 1), g.title, g.url⟩ :: t, by rw [ht]; simp⟩

theorem combineSources_mem_url : ∀ (gs acc : List Source) (u : String),
    (∃ s ∈ combineSources acc gs, s.url = u) ↔
      (∃ s ∈ acc, s.url = u) ∨ (∃ s ∈ gs, s.url = u) := by
  intro gs
  induction gs with
  | nil => intro acc u; simp [combineSources]
  | cons g gs ih =>
    intro acc u
    by_cases h : acc.any (fun s => s.url == g.url) = true
    · have hg : ∃ s ∈ acc, s.url = g.url := any_url_iff.mp h
      rw [combineSources_skip h, ih]
      constructor
      · rintro (h1 | h1)
        · exact Or.inl h1
        · obtain ⟨s, hs, hu⟩ := h1
          exact Or.inr ⟨s, List.mem_cons_of_mem _ hs, hu⟩
      · rintro (h1 | h1)
        · exact Or.inl h1
        · obtain ⟨s, hs, hu⟩ := h1
          rcases List.mem_cons.mp hs with rfl | hs
          · obtain ⟨s2, hs2, hu2⟩ := hg
            exact Or.inl ⟨s2, hs2, hu2.trans hu⟩
          · exact Or.inr ⟨s, hs, hu⟩
    · rw [combineSources_push (Bool.not_eq_true _ ▸ h), ih]
      constructor
      · rintro (h1 | h1)
        · obtain ⟨s, hs, hu⟩ := h1
          rcases List.mem_append.mp hs with hs | hs
          · exact Or.inl ⟨s, hs, hu⟩
          · simp only [List.mem_singleton] at hs
            subst hs
            exact Or.inr ⟨g, List.mem_cons_self g gs, hu⟩
        · obtain ⟨s, hs, hu⟩ := h1
          exact Or.inr ⟨s, List.mem_cons_of_mem _ hs, hu⟩
      · rintro (h1 | h1)
        · obtain ⟨s, hs, hu⟩ := h1
          exact Or.inl ⟨s, List.mem_append_left _ hs, hu⟩
        · obtain ⟨s, hs, hu⟩ := h1
          rcases List.mem_cons.mp hs with rfl | hs
          · exact Or.inl ⟨⟨toString (acc.length + 1), s.title, s.url⟩,
              List.mem_append_right _ (List.mem_singleton.mpr rfl), hu⟩
          · exact Or.inr ⟨s, hs, hu⟩

theorem combineSources_length : ∀ (gs acc : List Source),
    (gs.map Source.url).Nodup →
    (combineSources acc gs).length =
      acc.length +
        (gs.filter (fun g => !acc.any (fun s => s.url == g.url))).length := by
  intro gs
  induction gs with
  | nil => intro acc _; simp [combineSources]
  | cons g gs ih =>
    intro acc hnd
    rw [List.map_cons, List.nodup_cons] at hnd
    obtain ⟨hnotin, hnd2⟩ := hnd
    by_cases h : acc.any (fun s => s.url == g.url) = true
    · rw [combineSources_skip h, ih acc hnd2]
      simp [List.filter_cons, h]
    · have hb : acc.any (fun s => s.url == g.url) = false := Bool.not_eq_true _ ▸ h
      rw [combineSources_push hb]
      have hih := ih (acc ++ [(⟨toString (acc.length + 1), g.title, g.url⟩ : Source)]) hnd2
      rw [hih]
      have hfc : gs.filter (fun x =>
          !(acc ++ [(⟨toString (acc.length + 1), g.title, g.url⟩ : Source)]).any
            (fun s => s.url == x.url)) =
          gs.filter (fun x => !acc.any (fun s => s.url == x.url)) := by
        apply List.filter_congr
        intro x hx
        have hgx : ¬g.url = x.url := by
          intro he
          exact hnotin (he ▸ List.mem_map.mpr ⟨x, hx, rfl⟩)
        simp only [List.any_append, List.any_cons, List.any_nil, Bool.or_false]
        rw [show (Source.url (⟨toString (acc.length + 1), g.title, g.url⟩ : Source)
          == x.url) = false from beq_eq_false_iff_ne.mpr hgx]
        simp
      rw [hfc]
      have hflt : (g :: gs).filter (fun x => !acc.any (fun s => s.url == x.url)) =
          g :: gs.filter (fun x => !acc.any (fun s => s.url == x.url)) := by
        simp [List.filter_cons, hb]
      rw [hflt]
      simp only [List.length_append, List.length_cons, List.length_nil]
      omega

theorem combineSources_nodup : ∀ (gs acc : List Source),
    (acc.map Source.url).Nodup → ((combineSources acc gs).map Source.url).Nodup := by
  intro gs
  induction gs with
  | nil => intro acc h; simpa [combineSources] using h
  | cons g gs ih =>
    intro acc hnd
    by_cases h : acc.any (fun s => s.url == g.url) = true
    · rw [combineSources_skip h]
      exact ih acc hnd
    · rw [combineSources_push (Bool.not_eq_true _ ▸ h)]
      apply ih
      rw [List.map_append, List.map_singleton]
      apply List.Nodup.append hnd (List.nodup_singleton _)
      intro u hu hu2
      simp only [List.mem_singleton] at hu2
      subst hu2
      obtain ⟨s, hs, hsu⟩ := List.mem_map.mp hu
      exact absurd (any_url_iff.mpr ⟨s, hs, hsu⟩) h

theorem combineSources_label : ∀ (gs acc : List Source) (i : Nat) (s : Source),
    ((combineSources acc gs).drop acc.length)[i]? = some s →
    s.index = toString (acc.length + i + 1) := by
  intro gs
  induction gs with
  | nil => intro acc i s h; simp [combineSources] at h
  | cons g gs ih =>
    intro acc i s h
    by_cases hc : acc.any (fun s => s.url == g.url) = true
    · rw [combineSources_skip hc] at h
      exact ih acc i s h
    · rw [combineSources_push (Bool.not_eq_true _ ▸ hc)] at h
      obtain ⟨t, ht⟩ := combineSources_extends gs
        (acc ++ [(⟨toString (acc.length + 1), g.title, g.url⟩ : Source)])
      rw [ht] at h
      rw [List.append_assoc, List.drop_left] at h
      cases i with
      | zero =>
        simp only [List.singleton_append, List.getElem?_cons_zero] at h
        rw [← Option.some.inj h]
      | succ j =>
        have ht2 : ((combineSources
            (acc ++ [(⟨toString (acc.length + 1), g.title, g.url⟩ : Source)]) gs).drop
              (acc ++ [(⟨toString (acc.length + 1), g.title, g.url⟩ : Source)]).length)[j]? =
            some s := by
          rw [ht, List.drop_left]
          simpa using h
        have hix := ih
          (acc ++ [(⟨toString (acc.length + 1), g.title, g.url⟩ : Source)]) j s ht2
        rw [hix]
        congr 1
        simp
        omega

theorem combineSources_filter_sharp : ∀ (gs acc : List Source),
    (∃ s ∈ acc, s.url = "#") →
    (combineSources acc gs).filter (fun s => s.url == "#") =
      acc.filter (fun s => s.url == "#") := by
  intro gs
  induction gs with
  | nil => intro acc _; simp [combineSources]
  | cons g gs ih =>
    intro acc hsharp
    by_cases h : acc.any (fun s => s.url == g.url) = true
    · rw [combineSources_skip h]
      exact ih acc hsharp
    · rw [combineSources_push (Bool.not_eq_true _ ▸ h)]
      have hgs : ¬g.url = "#" := by
        intro he
        obtain ⟨s, hs, hsu⟩ := hsharp
        exact absurd (any_url_iff.mpr ⟨s, hs, hsu.trans he.symm⟩) h
      have hih := ih (acc ++ [(⟨toString (acc.length + 1), g.title, g.url⟩ : Source)])
        (by obtain ⟨s, hs, hsu⟩ := hsharp; exact ⟨s, List.mem_append_left _ hs, hsu⟩)
      rw [hih, List.filter_append]
      rw [show List.filter (fun s => s.url == "#")
        [(⟨toString (acc.length + 1), g.title, g.url⟩ : Source)] = [] from by
          simp [List.filter_cons, beq_eq_false_iff_ne.mpr hgs]]
      simp

theorem filter_length_split (l : List Source) (p : Source → Bool) :
    (l.filter p).length + (l.filter (fun a => !p a)).length = l.length := by
  induction l with
  | nil => rfl
  | cons a l ih =>
    by_cases h : p a = true
    · simp only [List.filter_cons, h, Bool.not_true, if_true, if_false,
        Bool.false_eq_true, List.length_cons]
      omega
    · have hb : p a = false := Bool.not_eq_true _ ▸ h
      simp only [List.filter_cons, hb, Bool.not_false, Bool.false_eq_true, if_false,
        if_true, List.length_cons]
      omega

theorem length_le_one_of_all_url_eq {S : List Source} {u : String}
    (hall : ∀ s ∈ S, s.url = u) (hnd : (S.map Source.url).Nodup) : S.length ≤ 1 := by
  cases S with
  | nil => simp
  | cons a S2 =>
    cases S2 with
    | nil => simp
    | cons b t =>
      exfalso
      rw [List.map_cons, List.map_cons, List.nodup_cons] at hnd
      apply hnd.1
      rw [hall a (List.mem_cons_self ..), ← hall b (by simp)]
      exact List.mem_cons_self ..

/-! ### Totality of the pipeline -/

theorem parseResult_total (s : String) : ∃ r, parseResult s = some r :=
  ⟨_, parseResult_eq s⟩

theorem parseResultBg_total (s : String) : ∃ r, parseResultBg s = some r := by
  by_cases h : s = ""
  · exact ⟨defaultReport, by simp [parseResultBg, h]⟩
  · exact ⟨_, parseResultBg_eq s h⟩

theorem aggregateResults_total (p g : Option String) :
    ∃ r, aggregateResults p g = some r := by
  unfold aggregateResults
  split_ifs with h1 h2 h3
  · cases g with
    | none => simp [isFalsyStr] at h1
    | some gs => exact ⟨gs, rfl⟩
  · cases p with
    | none => simp [isFalsyStr] at h2
    | some ps => exact ⟨ps, rfl⟩
  · exact ⟨_, rfl⟩
  · have hp : isFalsyStr p = false := by
      cases hfp : isFalsyStr p with
      | false => rfl
      | true =>
        cases hfg : isFalsyStr g with
        | false => exact absurd (by simp [hfp, hfg]) h1
        | true => exact absurd (by simp [hfp, hfg]) h3
    have hg : isFalsyStr g = false := by
      cases hfg : isFalsyStr g with
      | false => rfl
      | true => exact absurd (by simp [hp, hfg]) h2
    cases p with
    | none => simp [isFalsyStr] at hp
    | some ps =>
      cases g with
      | none => simp [isFalsyStr] at hg
      | some gs =>
        obtain ⟨pd, hpd⟩ := parseResultBg_total ps
        obtain ⟨gd, hgd⟩ := parseResultBg_total gs
        show ∃ r, (match parseResultBg ps, parseResultBg gs with
          | some pd, some gd =>
            some (formatAggregated (combineSources pd.sources gd.sources)
              (mergeTruth pd.truthPercentage gd.truthPercentage) pd gd)
          | _, _ => none) = some r
        rw [hpd, hgd]
        exact ⟨_, rfl⟩

/-! ### Remaining helpers used by the claims -/

theorem lastMatching_eq_none {p : List Char → Bool} :
    ∀ {secs : List (List Char)}, (∀ b ∈ secs, p b = false) →
    lastMatching p secs = none := by
  intro secs
  induction secs with
  | nil => intro _; rfl
  | cons b rest ih =>
    intro h
    unfold lastMatching
    rw [ih (fun x hx => h x (List.mem_cons_of_mem _ hx))]
    simp [h b (List.mem_cons_self b rest)]

theorem collectSources_eq_nil : ∀ {secs : List (List Char)},
    (∀ b ∈ secs, startsWithL srcLabel b = false) → collectSources secs = [] := by
  intro secs
  induction secs with
  | nil => intro _; rfl
  | cons b rest ih =>
    intro h
    unfold collectSources
    rw [ih (fun x hx => h x (List.mem_cons_of_mem _ hx))]
    simp [h b (List.mem_cons_self b rest)]

theorem report_ext {r : FactCheckReport} (h1 : r.truthPercentage = "N/A")
    (h2 : r.factCheck = "No fact check provided.")
    (h3 : r.context = "No context provided.") (h4 : r.sources = []) :
    r = defaultReport := by
  cases r
  simp_all [defaultReport]

/-- Claim C4: the report parser is total.  For every input string — empty,
malformed, colon-less or arbitrary — both `parseResult` variants return a
`FactCheckReport` (`none`, the embedding of a thrown exception, is
impossible), and an input with no labelled section at all degrades to the
default field values. -/
theorem C4_parser_total (s : String) :
    (parseResult s).isSome = true ∧ (parseResultBg s).isSome = true ∧
    ((∀ b ∈ sectionsOf s, startsWithL srcLabel b = false ∧
        startsWithL truthLabel b = false ∧ startsWithL fcLabel b = false ∧
        startsWithL ctxLabel b = false) →
      parseResult s = some defaultReport ∧ parseResultBg s = some defaultReport) := by
  obtain ⟨r1, h1⟩ := parseResult_total s
  obtain ⟨r2, h2⟩ := parseResultBg_total s
  refine ⟨by rw [h1]; rfl, by rw [h2]; rfl, ?_⟩
  intro h
  simp only [sectionsOf] at h
  have hdef : (runSectionsT (defaultReport, "") (splitSections s.data)).1 =
      defaultReport := by
    apply report_ext
    · rw [runT_truth, lastMatching_eq_none (fun b hb => (h b hb).2.1)]
      rfl
    · exact (runT_fc_absent (fun b hb => (h b hb).2.2.1) (by decide)).1
    · exact (runT_ctx_absent (fun b hb => (h b hb).2.2.2) (by decide)).1
    · rw [runT_sources, collectSources_eq_nil (fun b hb => (h b hb).1)]
      rfl
  constructor
  · rw [parseResult_eq s, hdef]
    have hfc : linkifyReferences defaultReport.factCheck defaultReport.sources =
        defaultReport.factCheck := linkifyReferences_no_bracket (by decide)
    have hcx : linkifyReferences defaultReport.context defaultReport.sources =
        defaultReport.context := linkifyReferences_no_bracket (by decide)
    rw [hfc, hcx]
  · by_cases he : s = ""
    · simp [parseResultBg, he]
    · rw [parseResultBg_eq s he, hdef]

/-- Claim C4 witness: a sectionless input parses to the defaults. -/
theorem C4_witness :
    parseResultBg "just some plain text" = some defaultReport := by
  have h := (C4_parser_total "just some plain text").2.2 (by decide)
  exact h.2

/-- Claim C5: absent labelled sections keep their explicit non-empty
sentinels (`"N/A"`, `"No fact check provided."`, `"No context provided."`),
a missing `Sources:` section yields an empty source list, and present
sections do overwrite their sentinel: the sources field is exactly the
accumulation over the `Sources:` blocks, and a final `Fact Check:` or
`Context:` block installs its own content. -/
theorem C5_missing_sections (s : String) :
    ∃ r, parseResult s = some r ∧
      ((∀ b ∈ sectionsOf s, startsWithL truthLabel b = false) →
        r.truthPercentage = "N/A") ∧
      ((∀ b ∈ sectionsOf s, startsWithL fcLabel b = false) →
        r.factCheck = "No fact check provided.") ∧
      ((∀ b ∈ sectionsOf s, startsWithL ctxLabel b = false) →
        r.context = "No context provided.") ∧
      ((∀ b ∈ sectionsOf s, startsWithL srcLabel b = false) → r.sources = []) ∧
      r.sources = collectSources (sectionsOf s) ∧
      (∀ pre B, sectionsOf s = pre ++ [B] → startsWithL fcLabel B = true →
        r.factCheck = linkifyReferences (afterFirstColonTrimmed B) r.sources) ∧
      (∀ pre B, sectionsOf s = pre ++ [B] → startsWithL ctxLabel B = true →
        r.context = linkifyReferences (afterFirstColonTrimmed B) r.sources) ∧
      ¬("N/A" : String) = "" ∧ ¬("No fact check provided." : String) = "" ∧
      ¬("No context provided." : String) = "" := by
  obtain ⟨r, hr⟩ := parseResult_total s
  have he := parseResult_eq s
  rw [hr] at he
  obtain rfl := Option.some.inj he.symm
  refine ⟨_, hr, ?_, ?_, ?_, ?_, ?_, ?_, ?_, by decide, by decide, by decide⟩
  · intro h
    simp only [sectionsOf] at h
    show (runSectionsT (defaultReport, "") (splitSections s.data)).1.truthPercentage
      = "N/A"
    rw [runT_truth, lastMatching_eq_none h]
    rfl
  · intro h
    simp only [sectionsOf] at h
    have hfc := (runT_fc_absent h
      (show ¬(defaultReport, ("" : String)).2 = "factCheck" from by decide)).1
    show linkifyReferences _ _ = _
    rw [hfc]
    exact linkifyReferences_no_bracket (by decide)
  · intro h
    simp only [sectionsOf] at h
    have hcx := (runT_ctx_absent h
      (show ¬(defaultReport, ("" : String)).2 = "context" from by decide)).1
    show linkifyReferences _ _ = _
    rw [hcx]
    exact linkifyReferences_no_bracket (by decide)
  · intro h
    simp only [sectionsOf] at h
    show (runSectionsT (defaultReport, "") (splitSections s.data)).1.sources = []
    rw [runT_sources, collectSources_eq_nil h]
    rfl
  · show (runSectionsT (defaultReport, "") (splitSections s.data)).1.sources = _
    rw [runT_sources]
    rfl
  · intro pre B hsecs hB
    have hns : startsWithL srcLabel B = false :=
      startsWith_head_ne rfl rfl (by decide) hB
    have hnt : startsWithL truthLabel B = false :=
      startsWith_head_ne rfl rfl (by decide) hB
    show linkifyReferences
      (runSectionsT (defaultReport, "") (splitSections s.data)).1.factCheck _ = _
    have hs2 : splitSections s.data = pre ++ [B] := hsecs
    rw [hs2, runT_append]
    have hstep : (sectionStepT (runSectionsT (defaultReport, "") pre) B).1.factCheck
        = afterFirstColonTrimmed B := by
      unfold sectionStepT afterFirstColonTrimmed
      simp [hns, hnt, hB]
    show linkifyReferences
      (runSectionsT (sectionStepT (runSectionsT (defaultReport, "") pre) B) []).1.factCheck _ = _
    show linkifyReferences
      (sectionStepT (runSectionsT (defaultReport, "") pre) B).1.factCheck _ = _
    rw [hstep]
  · intro pre B hsecs hB
    have hns : startsWithL srcLabel B = false :=
      startsWith_head_ne rfl rfl (by decide) hB
    have hnt : startsWithL truthLabel B = false :=
      startsWith_head_ne rfl rfl (by decide) hB
    have hnf : startsWithL fcLabel B = false :=
      startsWith_head_ne rfl rfl (by decide) hB
    show linkifyReferences
      (runSectionsT (defaultReport, "") (splitSections s.data)).1.context _ = _
    have hs2 : splitSections s.data = pre ++ [B] := hsecs
    rw [hs2, runT_append]
    have hstep : (sectionStepT (runSectionsT (defaultReport, "") pre) B).1.context
        = afterFirstColonTrimmed B := by
      unfold sectionStepT afterFirstColonTrimmed
      simp [hns, hnt, hnf, hB]
    show linkifyReferences
      (sectionStepT (runSectionsT (defaultReport, "") pre) B).1.context _ = _
    rw [hstep]

/-- Claim C5 witness: one concrete input exercising the sentinel clauses. -/
theorem C5_witness :
    ∃ r, parseResult "Fact Check: ok" = some r ∧ r.truthPercentage = "N/A" ∧
      r.sources = [] ∧ r.context = "No context provided." := by
  obtain ⟨r, hr, h1, h2, h3, h4, h5, h6, h7, h8⟩ :=
    C5_missing_sections "Fact Check: ok"
  exact ⟨r, hr, h1 (by decide), h4 (by decide), h3 (by decide)⟩

set_option maxRecDepth 4000

/-- Claim C6 counterexample: on `"Truth: 50: mostly"` the code stores only
the text between the first and second colons (`section.split(':')[1]`), so
the parsed truthPercentage is `"50"`, not the full after-first-colon content
`"50: mostly"` the claim requires. -/
theorem C6_counterexample :
    (parseResultBg "Truth: 50: mostly").map (fun r => r.truthPercentage) =
      some "50" ∧
    (parseResult "Truth: 50: mostly").map (fun r => r.truthPercentage) =
      some "50" ∧
    afterFirstColonTrimmed "Truth: 50: mostly".data = "50: mostly" ∧
    ¬("50" : String) = "50: mostly" := by
  refine ⟨by decide, by decide, by decide, by decide⟩

/-- Claim C6 (amended): for every input, the truthPercentage parsed from the
last block starting with `Truth:` is the trimmed content between the first
and the second colon of that block; content after a second colon is
dropped. -/
theorem C6_amended (s : String) (B : List Char)
    (h : lastMatching (fun b => startsWithL truthLabel b) (sectionsOf s) = some B) :
    (parseResultBg s).map (fun r => r.truthPercentage) = some (truthContent B) ∧
    (parseResult s).map (fun r => r.truthPercentage) = some (truthContent B) := by
  simp only [sectionsOf] at h
  have hne : ¬s = "" := by
    rintro rfl
    rw [show splitSections ("" : String).data = [[]] from rfl] at h
    simp [lastMatching, startsWithL, truthLabel] at h
  rw [parseResultBg_eq s hne, parseResult_eq s]
  have hd : (runSectionsT (defaultReport, "") (splitSections s.data)).1.truthPercentage
      = truthContent B := by rw [runT_truth, h]
  constructor
  · simp [hd]
  · simp [hd]

/-- Claim C6 witness: the amended rule evaluated on a concrete block. -/
theorem C6_witness :
    (parseResultBg "Truth: 7: x").map (fun r => r.truthPercentage) = some "7" := by
  have h := (C6_amended "Truth: 7: x" "Truth: 7: x".data (by decide)).1
  exact h.trans (by decide)

/-- Claim C7 counterexample: when both backends failed (both results null),
the code sends a normal `factCheckResult` message carrying the fixed
fallback string — it does not fail with any error, and no per-backend
reasons are carried. -/
theorem C7_counterexample :
    settleOutcome none none =
      OutMessage.factCheckResult "No results available from either API." := by
  decide

/-- Claim C7 (amended): the settle step never emits a `factCheckError`
message for any combination of backend outcomes; in particular when every
backend failed it returns the fixed fallback string through the normal
result channel, and the individual failure reasons are only logged, not
carried. -/
theorem C7_amended :
    (∀ p g : Option String, ∀ e : String,
      ¬settleOutcome p g = OutMessage.factCheckError e) ∧
    (∀ p g : Option String, p = none → g = none →
      settleOutcome p g =
        OutMessage.factCheckResult "No results available from either API.") := by
  constructor
  · intro p g e
    obtain ⟨r, hr⟩ := aggregateResults_total p g
    simp [settleOutcome, hr]
  · rintro p g rfl rfl
    rfl

/-- Claim C7 witness: the amended statement at the all-failed input. -/
theorem C7_witness :
    settleOutcome none none =
      OutMessage.factCheckResult "No results available from either API." ∧
    ¬settleOutcome none none = OutMessage.factCheckError "boom" :=
  ⟨C7_amended.2 none none rfl rfl, C7_amended.1 none none "boom"⟩

/-- Claim C9: when exactly one backend produced a (truthy) result, the
reconciler returns that raw report unchanged, on either side. -/
theorem C9_single_identity (p : String) (h : isFalsyStr (some p) = false) :
    aggregateResults (some p) none = some p ∧
    aggregateResults none (some p) = some p := by
  have hne : ¬p = "" := by simpa [isFalsyStr] using h
  constructor
  · simp [aggregateResults, isFalsyStr, hne]
  · simp [aggregateResults, isFalsyStr, hne]

/-- Claim C9 witness: a concrete single surviving report. -/
theorem C9_witness :
    aggregateResults (some "Truth: 50%") none = some "Truth: 50%" ∧
    aggregateResults none (some "Truth: 50%") = some "Truth: 50%" := by
  have h := C9_single_identity "Truth: 50%" (by decide)
  exact ⟨h.1, h.2⟩

/-- Claim C1 counterexample: `"unknown"` is unparseable and `"55%"` parses to
55, yet the merge of those two parsed reports yields the sentinel `"N/A"`,
not `"55%"` — the single-parseable-percentage rule only fires when the other
side is literally the sentinel `"N/A"`. -/
theorem C1_counterexample :
    jsParseInt "unknown" = none ∧ jsParseInt "55%" = some 55 ∧
    (parseResultBg "Truth: unknown").map (fun r => r.truthPercentage) =
      some "unknown" ∧
    (parseResultBg "Truth: 55%").map (fun r => r.truthPercentage) = some "55%" ∧
    mergeTruth "unknown" "55%" = "N/A" ∧
    aggregateResults (some "Truth: unknown") (some "Truth: 55%") =
      some "Sources:\n\n\nTruth: N/A\n\nFact Check (Perplexity): No fact check provided.\n\nFact Check (Groq): No fact check provided.\n\nContext: No context provided.\n\nAdditional Context: No context provided." ∧
    ¬("N/A" : String) = "55%" := by
  refine ⟨by decide, by decide, by decide, by decide, by decide, by decide, by decide⟩

/-- Claim C1 (amended): the merge treats the literal sentinel `"N/A"` as the
only unavailability marker.  If both percentage strings differ from `"N/A"`
and both parse via `parseInt`, the merged value is the half-up rounded mean
with `%` appended — with no range check, so out-of-range values are averaged
rather than discarded.  If both differ from `"N/A"` but either fails to
parse, the merge is `"N/A"` even when the other side parses.  If exactly one
is `"N/A"`, the other string is used verbatim, parseable or not.  If both are
`"N/A"`, the merge is `"N/A"`.  Parsed reports feed `aggregateResults`
exactly through this rule. -/
theorem C1_amended (pt gt : String) (a b : Int) :
    (¬pt = "N/A" → ¬gt = "N/A" → jsParseInt pt = some a → jsParseInt gt = some b →
      mergeTruth pt gt = toString ((a + b + 1).fdiv 2) ++ "%" ∧
      a + b ≤ 2 * ((a + b + 1).fdiv 2) ∧ 2 * ((a + b + 1).fdiv 2) ≤ a + b + 1) ∧
    (¬pt = "N/A" → ¬gt = "N/A" → jsParseInt pt = none → mergeTruth pt gt = "N/A") ∧
    (¬pt = "N/A" → ¬gt = "N/A" → jsParseInt gt = none → mergeTruth pt gt = "N/A") ∧
    (¬pt = "N/A" → gt = "N/A" → mergeTruth pt gt = pt) ∧
    (pt = "N/A" → ¬gt = "N/A" → mergeTruth pt gt = gt) ∧
    (pt = "N/A" → gt = "N/A" → mergeTruth pt gt = "N/A") ∧
    (∀ (p g : String) (rp rg : FactCheckReport), ¬p = "" → ¬g = "" →
      parseResultBg p = some rp → parseResultBg g = some rg →
      aggregateResults (some p) (some g) =
        some (formatAggregated (combineSources rp.sources rg.sources)
          (mergeTruth rp.truthPercentage rg.truthPercentage) rp rg)) := by
  refine ⟨?_, ?_, ?_, ?_, ?_, ?_, ?_⟩
  · intro h1 h2 ha hb
    have hb1 : (pt != "N/A") = true := bne_iff_ne.mpr h1
    have hb2 : (gt != "N/A") = true := bne_iff_ne.mpr h2
    refine ⟨by simp [mergeTruth, hb1, hb2, ha, hb], ?_, ?_⟩
    · have he : (a + b + 1).fdiv 2 = (a + b + 1) / 2 :=
        Int.fdiv_eq_ediv _ (by norm_num)
      rw [he]
      omega
    · have he : (a + b + 1).fdiv 2 = (a + b + 1) / 2 :=
        Int.fdiv_eq_ediv _ (by norm_num)
      rw [he]
      omega
  · intro h1 h2 ha
    have hb1 : (pt != "N/A") = true := bne_iff_ne.mpr h1
    have hb2 : (gt != "N/A") = true := bne_iff_ne.mpr h2
    simp only [mergeTruth, hb1, hb2, Bool.and_self, if_true, ha]
  · intro h1 h2 hb
    have hb1 : (pt != "N/A") = true := bne_iff_ne.mpr h1
    have hb2 : (gt != "N/A") = true := bne_iff_ne.mpr h2
    simp only [mergeTruth, hb1, hb2, Bool.and_self, if_true, hb]
    cases jsParseInt pt <;> rfl
  · intro h1 h2
    have hb1 : (pt != "N/A") = true := bne_iff_ne.mpr h1
    have hb2 : (gt != "N/A") = false := by simp [h2]
    simp [mergeTruth, hb1, hb2]
  · intro h1 h2
    have hb1 : (pt != "N/A") = false := by simp [h1]
    have hb2 : (gt != "N/A") = true := bne_iff_ne.mpr h2
    simp [mergeTruth, hb1, hb2]
  · intro h1 h2
    simp [mergeTruth, h1, h2]
  · intro p g rp rg hp hg hrp hrg
    have hfp : isFalsyStr (some p) = false := by simp [isFalsyStr, hp]
    have hfg : isFalsyStr (some g) = false := by simp [isFalsyStr, hg]
    unfold aggregateResults
    rw [hfp, hfg]
    simp only [Bool.false_and, Bool.and_false, Bool.not_false, Bool.true_and,
      Bool.false_eq_true, if_false]
    rw [hrp, hrg]

/-- Claim C1 witness: the amended rules evaluated on concrete percentages,
including the spec's own `80/60 → 70` example end to end. -/
theorem C1_witness :
    mergeTruth "80%" "60%" = "70%" ∧ mergeTruth "abc" "N/A" = "abc" ∧
    mergeTruth "N/A" "N/A" = "N/A" ∧
    aggregateResults (some "Truth: 80%") (some "Truth: 60%") =
      some "Sources:\n\n\nTruth: 70%\n\nFact Check (Perplexity): No fact check provided.\n\nFact Check (Groq): No fact check provided.\n\nContext: No context provided.\n\nAdditional Context: No context provided." := by
  refine ⟨?_, ?_, ?_, ?_⟩
  · have h := ((C1_amended "80%" "60%" 80 60).1 (by decide) (by decide)
      (by decide) (by decide)).1
    exact h.trans (by decide)
  · exact (C1_amended "abc" "N/A" 0 0).2.2.2.1 (by decide) rfl
  · exact (C1_amended "N/A" "N/A" 0 0).2.2.2.2.2.1 rfl rfl
  · have h := (C1_amended "80%" "60%" 80 60).2.2.2.2.2.2 "Truth: 80%" "Truth: 60%"
      ⟨"80%", "No fact check provided.", "No context provided.", []⟩
      ⟨"60%", "No fact check provided.", "No context provided.", []⟩
      (by decide) (by decide) (by decide) (by decide)
    exact h.trans (by decide)

/-- Claim C8 counterexample: the parser does not deduplicate — two source
lines citing the same non-placeholder url yield two entries with that url. -/
theorem C8_counterexample :
    (parseResultBg "Sources:\n1. [a](http://x)\n2. [b](http://x)").map
      (fun r => r.sources) =
      some [⟨"1", "a", "http://x"⟩, ⟨"2", "b", "http://x"⟩] ∧
    ¬("http://x" : String) = "#" := by
  refine ⟨by decide, by decide⟩

/-- Claim C8 (amended): the reconciler itself introduces no duplicate urls —
whenever the first report's source urls are pairwise distinct, the merged
list's urls are pairwise distinct (placeholder included).  The parser,
however, does not enforce the invariant: duplicate urls among raw source
lines are preserved verbatim in its output. -/
theorem C8_amended (l1 l2 : List Source) (h : (l1.map Source.url).Nodup) :
    ((combineSources l1 l2).map Source.url).Nodup :=
  combineSources_nodup l2 l1 h

/-- Claim C8 witness: the amended invariant on a concrete merge. -/
theorem C8_witness :
    combineSources [⟨"1", "a", "u1"⟩] [⟨"1", "b", "u1"⟩, ⟨"2", "c", "u2"⟩] =
      [⟨"1", "a", "u1"⟩, ⟨"2", "c", "u2"⟩] ∧
    (((combineSources [⟨"1", "a", "u1"⟩]
        [⟨"1", "b", "u1"⟩, ⟨"2", "c", "u2"⟩]).map Source.url)).Nodup :=
  ⟨by decide, C8_amended [⟨"1", "a", "u1"⟩] [⟨"1", "b", "u1"⟩, ⟨"2", "c", "u2"⟩]
    (by decide)⟩

/-- Claim C10: url deduplication treats the placeholder `"#"` exactly like a
real url — once any already-merged source carries `"#"`, every second-report
source with url `"#"` is dropped, so the merged list's `"#"` entries are
exactly the first report's.  A source line with no extractable markdown link
is what produces the placeholder. -/
theorem C10_placeholder_dedup (l1 l2 : List Source)
    (h : ∃ s ∈ l1, s.url = "#") :
    (combineSources l1 l2).filter (fun s => s.url == "#") =
      l1.filter (fun s => s.url == "#") ∧
    extractSources "Sources:\n1. Wikipedia article".data =
      [⟨"1", "Wikipedia article", "#"⟩] :=
  ⟨combineSources_filter_sharp l2 l1 h, by decide⟩

/-- Claim C10 witness: a second-report placeholder source is dropped. -/
theorem C10_witness :
    (combineSources [⟨"1", "t", "#"⟩] [⟨"1", "u", "#"⟩, ⟨"2", "v", "http://y"⟩]).filter
      (fun s => s.url == "#") =
      [⟨"1", "t", "#"⟩].filter (fun s => s.url == "#") ∧
    combineSources [⟨"1", "t", "#"⟩] [⟨"1", "u", "#"⟩, ⟨"2", "v", "http://y"⟩] =
      [⟨"1", "t", "#"⟩, ⟨"2", "v", "http://y"⟩] :=
  ⟨(C10_placeholder_dedup [⟨"1", "t", "#"⟩] [⟨"1", "u", "#"⟩, ⟨"2", "v", "http://y"⟩]
    (by decide)).1, by decide⟩

theorem filter_eq_self_of_all {l : List Source} {p : Source → Bool}
    (h : ∀ a ∈ l, p a = true) : l.filter p = l := by
  induction l with
  | nil => rfl
  | cons a t ih =>
    simp only [List.filter_cons, h a (List.mem_cons_self a t), if_true]
    rw [ih (fun x hx => h x (List.mem_cons_of_mem _ hx))]

/-- Claim C2: the merged source list starts with the first report's sources
in order; every entry appended after them carries the next positional label;
a url appears in the merge exactly when it appears in either input; with
pairwise-distinct urls in the second report, disjoint inputs merge to the
sum of the lengths and inputs sharing exactly one url merge to one less than
the sum. -/
theorem C2_source_merge (l1 l2 : List Source)
    (h2 : (l2.map Source.url).Nodup) :
    (combineSources l1 l2).take l1.length = l1 ∧
    (∀ i s, ((combineSources l1 l2).drop l1.length)[i]? = some s →
      s.index = toString (l1.length + i + 1)) ∧
    (∀ u, (∃ s ∈ combineSources l1 l2, s.url = u) ↔
      (∃ s ∈ l1, s.url = u) ∨ (∃ s ∈ l2, s.url = u)) ∧
    ((∀ u, (∃ s ∈ l1, s.url = u) → ¬∃ s ∈ l2, s.url = u) →
      (combineSources l1 l2).length = l1.length + l2.length) ∧
    ((∃ u0, ∀ u, ((∃ s ∈ l1, s.url = u) ∧ ∃ s ∈ l2, s.url = u) ↔ u = u0) →
      (combineSources l1 l2).length = l1.length + l2.length - 1) := by
  refine ⟨?_, ?_, ?_, ?_, ?_⟩
  · obtain ⟨t, ht⟩ := combineSources_extends l2 l1
    rw [ht, List.take_left]
  · intro i s h
    exact combineSources_label l2 l1 i s h
  · intro u
    exact combineSources_mem_url l2 l1 u
  · intro hd
    rw [combineSources_length l2 l1 h2]
    have hfs : l2.filter (fun g => !l1.any (fun s => s.url == g.url)) = l2 := by
      apply filter_eq_self_of_all
      intro g hg
      cases ha : l1.any (fun s => s.url == g.url) with
      | false => rfl
      | true =>
        obtain ⟨s1, hs1, hs1u⟩ := any_url_iff.mp ha
        exact absurd ⟨g, hg, rfl⟩ (hd g.url ⟨s1, hs1, hs1u⟩)
    rw [hfs]
  · rintro ⟨u0, hu0⟩
    rw [combineSources_length l2 l1 h2]
    have hsplit := filter_length_split l2 (fun g => l1.any (fun s => s.url == g.url))
    have hS1 : (l2.filter (fun g => l1.any (fun s => s.url == g.url))).length = 1 := by
      have hmemS : ∀ s ∈ l2.filter (fun g => l1.any (fun x => x.url == g.url)),
          s.url = u0 := by
        intro s hs
        obtain ⟨hsl2, hsa⟩ := List.mem_filter.mp hs
        obtain ⟨s1, hs1, hs1u⟩ := any_url_iff.mp hsa
        exact (hu0 s.url).mp ⟨⟨s1, hs1, hs1u⟩, ⟨s, hsl2, rfl⟩⟩
      have hnd : ((l2.filter (fun g => l1.any (fun x => x.url == g.url))).map
          Source.url).Nodup :=
        ((List.filter_sublist l2).map Source.url).nodup h2
      have hle := length_le_one_of_all_url_eq hmemS hnd
      have hpos : 0 < (l2.filter (fun g => l1.any (fun x => x.url == g.url))).length := by
        obtain ⟨⟨s1, hs1, hs1u⟩, ⟨s2, hs2, hs2u⟩⟩ := (hu0 u0).mpr rfl
        have hmem : s2 ∈ l2.filter (fun g => l1.any (fun x => x.url == g.url)) := by
          rw [List.mem_filter]
          exact ⟨hs2, any_url_iff.mpr ⟨s1, hs1, hs1u.trans hs2u.symm⟩⟩
        exact List.length_pos.mpr (List.ne_nil_of_mem hmem)
      omega
    omega

/-- Claim C2 witness: disjoint and one-shared merges on concrete lists. -/
theorem C2_witness :
    combineSources [⟨"1", "a", "u1"⟩] [⟨"1", "b", "u2"⟩] =
      [⟨"1", "a", "u1"⟩, ⟨"2", "b", "u2"⟩] ∧
    (combineSources [⟨"1", "a", "u1"⟩] [⟨"1", "b", "u2"⟩]).length = 2 ∧
    (combineSources [⟨"1", "a", "u1"⟩, ⟨"2", "b", "u2"⟩]
      [⟨"1", "c", "u2"⟩, ⟨"2", "d", "u3"⟩]).length = 3 := by
  refine ⟨by decide, ?_, ?_⟩
  · have h := (C2_source_merge [⟨"1", "a", "u1"⟩] [⟨"1", "b", "u2"⟩]
      (by decide)).2.2.2.1 ?_
    · exact h.trans (by decide)
    · intro u hu hv
      simp only [List.mem_singleton] at hu hv
      obtain ⟨s, rfl, hsu⟩ := hu
      obtain ⟨t, rfl, htu⟩ := hv
      rw [← hsu] at htu
      exact absurd htu (by decide)
  · have h := (C2_source_merge [⟨"1", "a", "u1"⟩, ⟨"2", "b", "u2"⟩]
      [⟨"1", "c", "u2"⟩, ⟨"2", "d", "u3"⟩] (by decide)).2.2.2.2 ?_
    · exact h.trans (by decide)
    · refine ⟨"u2", ?_⟩
      intro u
      constructor
      · rintro ⟨⟨s1, hs1, h1u⟩, ⟨s2, hs2, h2u⟩⟩
        have hs1u : s1.url = "u1" ∨ s1.url = "u2" := by
          rcases List.mem_cons.mp hs1 with rfl | hs1
          · exact Or.inl rfl
          · simp only [List.mem_singleton] at hs1
            subst hs1
            exact Or.inr rfl
        have hs2u : s2.url = "u2" ∨ s2.url = "u3" := by
          rcases List.mem_cons.mp hs2 with rfl | hs2
          · exact Or.inl rfl
          · simp only [List.mem_singleton] at hs2
            subst hs2
            exact Or.inr rfl
        subst h1u
        rcases hs1u with hx | hx
        · rcases hs2u with hy | hy <;>
            (rw [hy, hx] at h2u; exact absurd h2u (by decide))
        · exact hx
      · rintro rfl
        exact ⟨by decide, by decide⟩

/-- Claim C3: the linkifier replaces each full bracketed citation group —
one digit run, then comma-separated further digit runs with optional
whitespace after each comma — by resolving each index independently and
rejoining with `", "`; an index whose string matches some source's `index`
field becomes an anchor to that source's url labelled with the original
index text, an unmatched index keeps its bracketed form; and a bracketed
stretch containing any character that is not a digit, comma or whitespace is
left untouched. -/
theorem C3_linkify (sources : List Source) :
    (∀ (a b d1 : List Char) (pairs : List (List Char × List Char)),
      (∀ c ∈ a, ¬c = '[') → d1 ≠ [] → (∀ c ∈ d1, c.isDigit = true) →
      (∀ p ∈ pairs, (∀ c ∈ p.1, isSpaceJS c = true) ∧
        (∀ c ∈ p.2, c.isDigit = true) ∧ p.2 ≠ []) →
      linkifyAux sources (a ++ '[' :: (d1 ++ groupTail pairs ++ ']' :: b)) =
        a ++ (String.intercalate ", " ((d1 :: pairs.map (fun p => p.2)).map
          (fun d => resolveIndex sources (String.mk d)))).data ++
          linkifyAux sources b) ∧
    (∀ idx s0, sources.find? (fun s => s.index == idx) = some s0 →
      resolveIndex sources idx =
        "<a href=\"" ++ s0.url ++ "\" target=\"_blank\">[" ++ idx ++ "]</a>") ∧
    (∀ idx, (∀ s ∈ sources, ¬s.index = idx) →
      resolveIndex sources idx = "[" ++ idx ++ "]") ∧
    (∀ (a u b : List Char),
      (∀ c ∈ a, ¬c = '[') → (∀ c ∈ u, ¬c = '[') → (∀ c ∈ u, ¬c = ']') →
      (∃ c ∈ u, c.isDigit = false ∧ ¬c = ',' ∧ isSpaceJS c = false) →
      linkifyAux sources (a ++ '[' :: (u ++ ']' :: b)) =
        a ++ '[' :: (u ++ ']' :: linkifyAux sources b)) := by
  refine ⟨?_, ?_, ?_, ?_⟩
  · intro a b d1 pairs ha h1ne h1 hp
    rw [linkifyAux_group ha h1ne h1 hp, renderGroup_eq h1 hp]
  · intro idx s0 h
    unfold resolveIndex
    rw [h]
  · intro idx h
    unfold resolveIndex
    rw [List.find?_eq_none.mpr]
    intro s hs
    exact beq_eq_false_iff_ne.mpr (h s hs) ▸ Bool.false_ne_true
  · intro a u b ha hu hub hbad
    exact linkifyAux_bad ha hu hub hbad

/-- Claim C3 witness: the three behaviours on concrete text. -/
theorem C3_witness :
    linkifyAux [⟨"1", "t", "http://u"⟩] "see [1] ok".data =
      "see <a href=\"http://u\" target=\"_blank\">[1]</a> ok".data ∧
    linkifyAux [⟨"1", "t", "http://u"⟩] "n [2] n".data = "n [2] n".data ∧
    linkifyAux [⟨"1", "t", "http://u"⟩] "x [a1] y".data = "x [a1] y".data := by
  have h := C3_linkify [⟨"1", "t", "http://u"⟩]
  refine ⟨?_, ?_, ?_⟩
  · have h1 := h.1 "see ".data " ok".data ['1'] [] (by decide) (by decide)
      (by decide) (by decide)
    exact h1
  · have h1 := h.1 "n ".data " n".data ['2'] [] (by decide) (by decide)
      (by decide) (by decide)
    exact h1
  · have h1 := h.2.2.2 "x ".data "a1".data " y".data (by decide) (by decide)
      (by decide) (by decide)
    exact h1
